import Mathlib

/-!
Verification of the stock/price reconciliation core of the seller-apis
repository (files seller.py and market.py), shallowly embedded in Lean 4.

Strings coming from the source rows are modelled as Lean `String`s already
passed through Python `str(...)`: a remnant row carries the stringified
product code, the stringified quantity, and the raw price string. Python
exceptions (ValueError from `int(...)`, the ValueError of `range` with a
zero step) are modelled with `Option`: `none` is a raised exception.
-/

namespace seller

/-- One row of the authoritative remnants source (`watch_remnants` entry):
`code` is `str(watch.get("Код"))`, `qty` is the quantity value (whose
`str` form drives the sentinel comparison and whose `int` parse gives the
numeric count), `price` is the raw price string `watch.get("Цена")`. -/
structure Remnant where
  code : String
  qty : String
  price : String
deriving DecidableEq

/-- Payload appended by `seller.create_stocks`:
`{"offer_id": ..., "stock": ...}`. -/
structure StockPayload where
  offer_id : String
  stock : Int
deriving DecidableEq

/-- Payload appended by `seller.create_prices`. -/
structure PricePayload where
  auto_action_enabled : String
  currency_code : String
  offer_id : String
  old_price : String
  price : String
deriving DecidableEq

/-- Digits of a numeral to its value, most significant first. -/
def digitsVal (ds : List Char) : Nat :=
  ds.foldl (fun a c => 10 * a + (c.toNat - 48)) 0

/-- The whitespace stripping `int(s)` applies before parsing. -/
def pyStrip (s : List Char) : List Char :=
  ((s.dropWhile Char.isWhitespace).reverse.dropWhile Char.isWhitespace).reverse

/-- Python `int(s)` on a string: optional surrounding whitespace, an
optional sign, then at least one decimal digit; anything else raises
ValueError (`none`). -/
def pyInt (s : String) : Option Int :=
  match pyStrip s.data with
  | [] => none
  | c :: ds =>
    if c = '-' then
      if ds ≠ [] ∧ ds.all Char.isDigit then some (-(digitsVal ds : Int)) else none
    else if c = '+' then
      if ds ≠ [] ∧ ds.all Char.isDigit then some ((digitsVal ds : Int)) else none
    else
      if (c :: ds).all Char.isDigit then some ((digitsVal (c :: ds) : Int)) else none

/-- The quantity bucketing of `create_stocks` (seller.py lines 228-234 and
market.py lines 183-189, identical code): `count = str(qty)`; `">10"`
gives 100, `"1"` gives 0, otherwise `int(qty)`. -/
def toStock (qty : String) : Option Int :=
  if qty = ">10" then some 100
  else if qty = "1" then some 0
  else pyInt qty

/-- The first loop of `seller.create_stocks`: walks the remnants, and for
each one whose code is in the current `offer_ids` list emits a payload and
removes that code (`offer_ids.remove`, i.e. erase of the first
occurrence). Returns the emitted payloads together with the final
(mutated) `offer_ids` list; `none` models the ValueError of `int`. -/
def stocksLoop : List Remnant → List String → Option (List StockPayload × List String)
  | [], offer_ids => some ([], offer_ids)
  | w :: ws, offer_ids =>
    if w.code ∈ offer_ids then
      match toStock w.qty with
      | none => none
      | some st =>
        match stocksLoop ws (offer_ids.erase w.code) with
        | none => none
        | some (rest, fin) => some (⟨w.code, st⟩ :: rest, fin)
    else stocksLoop ws offer_ids

/-- Embedding of `seller.create_stocks(watch_remnants, offer_ids)`: the matched
payloads of the first loop followed by a zero payload for every offer id
still left; the second component is the final state of the mutated
`offer_ids` list (what the caller of `create_stocks` sees afterwards). -/
def create_stocks (watch_remnants : List Remnant) (offer_ids : List String) :
    Option (List StockPayload × List String) :=
  match stocksLoop watch_remnants offer_ids with
  | none => none
  | some (stocks, fin) => some (stocks ++ fin.map (fun o => ⟨o, 0⟩), fin)

/-- Python `s.split(".")`: the maximal split of the character list on the
separator, empty segments kept. -/
def pySplitDot : List Char → List (List Char)
  | [] => [[]]
  | c :: cs =>
    if c = '.' then [] :: pySplitDot cs
    else
      match pySplitDot cs with
      | [] => [[c]]
      | h :: t => (c :: h) :: t

/-- Embedding of `seller.price_conversion(price)`:
`re.sub("[^0-9]", "", price.split(".")[0])`. -/
def price_conversion (price : String) : String :=
  ⟨((pySplitDot price.data).headD []).filter Char.isDigit⟩

/-- Embedding of `seller.create_prices(watch_remnants, offer_ids)`: a price payload for
every remnant whose stringified code is in `offer_ids` (membership test
only, no mutation). -/
def create_prices (watch_remnants : List Remnant) (offer_ids : List String) :
    List PricePayload :=
  watch_remnants.filterMap (fun w =>
    if w.code ∈ offer_ids then
      some ⟨"UNKNOWN", "RUB", w.code, "0", price_conversion w.price⟩
    else none)

/-- The chunking of `divide` for a positive step `n`: successive slices
`lst[i : i + n]` for `i = 0, n, 2n, ...` below `len(lst)`. -/
def chunks : Nat → List α → List (List α)
  | _, [] => []
  | 0, _ :: _ => []
  | n + 1, x :: xs => ((x :: xs).take (n + 1)) :: chunks (n + 1) ((x :: xs).drop (n + 1))
termination_by _ lst => lst.length
decreasing_by
  simp [List.length_drop]
  omega

/-- Embedding of `seller.divide(lst, n)`, fully consumed: `range(0, len(lst), n)`
raises ValueError when `n == 0` (`none`), is empty when `n < 0` (a
negative step never reaches a nonnegative stop from 0), and otherwise
steps through the slices `lst[i : i + n]`. -/
def divide (lst : List α) (n : Int) : Option (List (List α)) :=
  if n = 0 then none
  else if n < 0 then some []
  else some (chunks n.toNat lst)

end seller

namespace market

open seller (Remnant toStock)

/-- One element of the `items` list of a partner-API stock payload. -/
structure StockItem where
  count : Int
  type : String
  updatedAt : String
deriving DecidableEq

/-- Payload appended by `market.create_stocks`. -/
structure StockPayload where
  sku : String
  warehouseId : Int
  items : List StockItem
deriving DecidableEq

/-- The remnants loop of `market.create_stocks`: same matching, bucketing
and consumption as the seller variant, richer payload; `date` is the one
timestamp string computed before the loop. -/
def stocksLoop (date : String) (warehouse_id : Int) :
    List Remnant → List String → Option (List StockPayload × List String)
  | [], offer_ids => some ([], offer_ids)
  | w :: ws, offer_ids =>
    if w.code ∈ offer_ids then
      match toStock w.qty with
      | none => none
      | some st =>
        match stocksLoop date warehouse_id ws (offer_ids.erase w.code) with
        | none => none
        | some (rest, fin) =>
          some (⟨w.code, warehouse_id, [⟨st, "FIT", date⟩]⟩ :: rest, fin)
    else stocksLoop date warehouse_id ws offer_ids

/-- Embedding of `market.create_stocks(watch_remnants, offer_ids, warehouse_id)`. The
`date` argument models the single
`datetime.datetime.utcnow().replace(microsecond=0).isoformat() + "Z"`
captured once at the top of the call (line 180) and reused for every
payload. The second component is the final mutated `offer_ids` list. -/
def create_stocks (watch_remnants : List Remnant) (offer_ids : List String)
    (warehouse_id : Int) (date : String) :
    Option (List StockPayload × List String) :=
  match stocksLoop date warehouse_id watch_remnants offer_ids with
  | none => none
  | some (stocks, fin) =>
    some (stocks ++ fin.map (fun o => ⟨o, warehouse_id, [⟨0, "FIT", date⟩]⟩), fin)

end market

namespace seller

/-- Spec-side helper (from the spec wording of §8 and §4.2): the remnants
whose stringified code is in the input `offer_ids`. -/
def specMatched (ws : List Remnant) (offer_ids : List String) : List Remnant :=
  ws.filter (fun w => decide (w.code ∈ offer_ids))

/-- Spec-side helper: the stale offer ids, those in `offer_ids` that are
not the stringified code of any remnant. -/
def specStale (ws : List Remnant) (offer_ids : List String) : List String :=
  offer_ids.filter (fun o => decide (∀ w ∈ ws, w.code ≠ o))

/-- The stock payload a matched remnant gives rise to (none when `int`
raises). -/
def payloadOf (w : Remnant) : Option StockPayload :=
  (toStock w.qty).map (fun st => ⟨w.code, st⟩)

end seller

namespace market

/-- The partner-API stock payload a matched remnant gives rise to. -/
def payloadOf (wid : Int) (date : String) (w : seller.Remnant) : Option StockPayload :=
  (seller.toStock w.qty).map (fun st => ⟨w.code, wid, [⟨st, "FIT", date⟩]⟩)

end market

namespace seller

theorem pySplitDot_ne_nil (l : List Char) : pySplitDot l ≠ [] := by
  induction l with
  | nil => simp [pySplitDot]
  | cons c cs ih =>
    simp only [pySplitDot]
    split
    · simp
    · cases h : pySplitDot cs with
      | nil => exact absurd h ih
      | cons a t => simp

theorem pySplitDot_head (l : List Char) :
    (pySplitDot l).headD [] = l.takeWhile (fun c => !(c = '.')) := by
  induction l with
  | nil => simp [pySplitDot]
  | cons c cs ih =>
    simp only [pySplitDot]
    by_cases hc : c = '.'
    · simp [hc, List.takeWhile]
    · simp only [if_neg hc]
      cases h : pySplitDot cs with
      | nil => exact absurd h (pySplitDot_ne_nil cs)
      | cons a t =>
        rw [h] at ih
        simp only [List.headD] at ih
        simp [List.takeWhile, hc, ← ih]

end seller

/-- Claim C5: `price_conversion` returns the segment of the input before
the first period with every non-digit character deleted (the empty string
when no digits remain), and on the three documented examples it returns
"5990", "5990" and "" respectively. -/
theorem C5_price_conversion (s : String) :
    seller.price_conversion s =
      ⟨(s.data.takeWhile (fun c => !(c = '.'))).filter Char.isDigit⟩ ∧
    seller.price_conversion "5\x27990.00 руб." = "5990" ∧
    seller.price_conversion "5990" = "5990" ∧
    seller.price_conversion "руб." = "" := by
  refine ⟨?_, by decide, by decide, by decide⟩
  show (⟨((seller.pySplitDot s.data).headD []).filter Char.isDigit⟩ : String) = _
  rw [seller.pySplitDot_head]

namespace seller

theorem chunks_cons (n : Nat) (x : α) (xs : List α) :
    chunks (n + 1) (x :: xs) =
      ((x :: xs).take (n + 1)) :: chunks (n + 1) ((x :: xs).drop (n + 1)) := by
  rw [chunks]

theorem chunks_nil (n : Nat) : chunks n ([] : List α) = [] := by
  cases n <;> rw [chunks]

theorem chunks_join_eq (n : Nat) :
    ∀ lst : List α, (chunks (n + 1) lst).flatten = lst := by
  intro lst
  generalize hk : lst.length = k
  induction k using Nat.strong_induction_on generalizing lst with
  | _ k ih =>
    subst hk
    cases lst with
    | nil => simp [chunks_nil]
    | cons x xs =>
      rw [chunks_cons]
      simp only [List.flatten_cons]
      rw [ih ((x :: xs).drop (n + 1)).length ?_ _ rfl]
      · exact List.take_append_drop _ _
      · simp [List.length_drop]
        omega

theorem chunks_get? (n : Nat) :
    ∀ (lst : List α) (i : Nat), i < (chunks (n + 1) lst).length →
      (chunks (n + 1) lst).get? i = some ((lst.drop ((n + 1) * i)).take (n + 1)) := by
  intro lst
  generalize hk : lst.length = k
  induction k using Nat.strong_induction_on generalizing lst with
  | _ k ih =>
    subst hk
    intro i hi
    cases lst with
    | nil => rw [chunks_nil] at hi; exact absurd hi (by simp)
    | cons x xs =>
      rw [chunks_cons] at hi ⊢
      cases i with
      | zero => simp
      | succ j =>
        simp only [List.get?_cons_succ]
        rw [ih ((x :: xs).drop (n + 1)).length ?_ _ rfl j ?_]
        · rw [List.drop_drop]
          have harith : n + 1 + (n + 1) * j = (n + 1) * (j + 1) := by ring
          rw [harith]
        · simp [List.length_drop]
          omega
        · simpa using hi

theorem chunks_ne_nil (n : Nat) :
    ∀ (lst : List α), ∀ c ∈ chunks (n + 1) lst, c ≠ [] := by
  intro lst
  generalize hk : lst.length = k
  induction k using Nat.strong_induction_on generalizing lst with
  | _ k ih =>
    subst hk
    intro c hc
    cases lst with
    | nil => rw [chunks_nil] at hc; exact absurd hc (by simp)
    | cons x xs =>
      rw [chunks_cons] at hc
      rcases List.mem_cons.mp hc with h | h
      · subst h; simp
      · refine ih ((x :: xs).drop (n + 1)).length ?_ _ rfl c h
        simp [List.length_drop]
        omega

theorem chunks_exact (n : Nat) :
    ∀ (lst : List α), (n + 1) ∣ lst.length →
      (chunks (n + 1) lst).length = lst.length / (n + 1) ∧
      ∀ c ∈ chunks (n + 1) lst, c.length = n + 1 := by
  intro lst
  generalize hk : lst.length = k
  induction k using Nat.strong_induction_on generalizing lst with
  | _ k ih =>
    subst hk
    intro hdvd
    cases lst with
    | nil => simp [chunks_nil]
    | cons x xs =>
      have hlen : n + 1 ≤ (x :: xs).length := by
        rcases hdvd with ⟨m, hm⟩
        cases m with
        | zero => simp at hm
        | succ m' =>
          have h1 := Nat.mul_le_mul_left (n + 1) (show 1 ≤ m' + 1 by omega)
          omega
      have hdrop : ((x :: xs).drop (n + 1)).length = (x :: xs).length - (n + 1) := by
        simp [List.length_drop]
      have hdvd' : (n + 1) ∣ ((x :: xs).drop (n + 1)).length := by
        rw [hdrop]
        exact Nat.dvd_sub' hdvd dvd_rfl
      have hrec := ih ((x :: xs).drop (n + 1)).length (by omega) _ rfl hdvd'
      rcases hdvd with ⟨m, hm⟩
      have hm1 : 1 ≤ m := by
        by_contra hcon
        have hz : m = 0 := by omega
        rw [hz] at hm
        simp at hm
      rw [chunks_cons]
      constructor
      · simp only [List.length_cons, hrec.1, hdrop, hm]
        have h1 : (n + 1) * m - (n + 1) = (n + 1) * (m - 1) := by
          cases m with
          | zero => simp
          | succ m2 =>
            rw [Nat.mul_succ, Nat.succ_sub_one]
            omega
        rw [h1, Nat.mul_div_cancel_left _ (Nat.succ_pos n),
          Nat.mul_div_cancel_left _ (Nat.succ_pos n)]
        omega
      · intro c hc
        rcases List.mem_cons.mp hc with h | h
        · subst h
          have hlen2 : n + 1 ≤ xs.length + 1 := by
            simpa using hlen
          simp [List.length_take]
          omega
        · exact hrec.2 c h

end seller

/-- Claim C6: for every list and positive chunk size, `divide` yields
exactly the contiguous slices of the list in order (chunk `i` is
`lst[size * i : size * i + size]`), their concatenation is the input, no
chunk is empty, in the divisibility case there are exactly
`len / size` chunks all of length `size`, and `divide([1,2,3], 2)` yields
`[1,2]` then `[3]` and then terminates. -/
theorem C6_divide {α : Type} (lst : List α) (n : Int) (h : 0 < n) :
    (∃ L, seller.divide lst n = some L ∧
      L.flatten = lst ∧
      (∀ i, i < L.length →
        L.get? i = some ((lst.drop (n.toNat * i)).take n.toNat)) ∧
      (∀ c ∈ L, c ≠ []) ∧
      (n.toNat ∣ lst.length →
        L.length = lst.length / n.toNat ∧ ∀ c ∈ L, c.length = n.toNat)) ∧
    seller.divide [1, 2, 3] (2 : Int) = some [[1, 2], [3]] := by
  constructor
  · have h0 : n ≠ 0 := by omega
    have h1 : ¬ n < 0 := by omega
    have h2 : 0 < n.toNat := by omega
    obtain ⟨m, hm⟩ : ∃ m, n.toNat = m + 1 := ⟨n.toNat - 1, by omega⟩
    refine ⟨seller.chunks n.toNat lst, ?_, ?_, ?_, ?_, ?_⟩
    · simp [seller.divide, h0, h1]
    · rw [hm]; exact seller.chunks_join_eq m lst
    · rw [hm]; exact fun i hi => seller.chunks_get? m lst i hi
    · rw [hm]; exact seller.chunks_ne_nil m lst
    · rw [hm]; exact seller.chunks_exact m lst
  · have e1 := seller.chunks_cons 1 (1 : Nat) [2, 3]
    have e2 := seller.chunks_cons 1 (3 : Nat) []
    have e3 := seller.chunks_nil 2 (α := Nat)
    norm_num at e1 e2
    simp only [seller.divide]
    norm_num
    rw [show ((2 : Int).toNat) = 2 by rfl, e1, e2, e3]

/-- Claim C6 witness: the theorem applied at `[1,2,3]` with size 2. -/
theorem C6_divide_witness :
    (∃ L, seller.divide ([1, 2, 3] : List Nat) (2 : Int) = some L ∧
      L.flatten = [1, 2, 3] ∧
      (∀ i, i < L.length →
        L.get? i = some (([1, 2, 3].drop ((2 : Int).toNat * i)).take (2 : Int).toNat)) ∧
      (∀ c ∈ L, c ≠ []) ∧
      ((2 : Int).toNat ∣ ([1, 2, 3] : List Nat).length →
        L.length = ([1, 2, 3] : List Nat).length / (2 : Int).toNat ∧
        ∀ c ∈ L, c.length = (2 : Int).toNat)) ∧
    seller.divide [1, 2, 3] (2 : Int) = some [[1, 2], [3]] :=
  C6_divide [1, 2, 3] 2 (by norm_num)

/-- Claim C7 counterexample: at size `-1 ≤ 0`, iterating
`divide([1,2,3], -1)` does not fail: `range(0, 3, -1)` is empty, so the
generator silently yields the empty sequence, contrary to the claim. -/
theorem C7_counterexample :
    (-1 : Int) ≤ 0 ∧ seller.divide ([1, 2, 3] : List Nat) (-1) ≠ none ∧
      seller.divide ([1, 2, 3] : List Nat) (-1) = some [] := by
  refine ⟨by norm_num, ?_, ?_⟩ <;> simp [seller.divide]

/-- Claim C7 (amended): iterating `divide(items, size)` with
`size ≤ 0` fails with an error exactly when `size = 0` (the ValueError of
`range` with zero step); for `size < 0` it silently yields the empty
sequence. -/
theorem C7_divide_nonpositive {α : Type} (lst : List α) (n : Int) (h : n ≤ 0) :
    (seller.divide lst n = none ↔ n = 0) ∧
    (n < 0 → seller.divide lst n = some []) := by
  by_cases h0 : n = 0
  · simp [seller.divide, h0]
  · have hneg : n < 0 := by omega
    simp [seller.divide, h0, hneg]

/-- Claim C7 witness: the amended theorem applied at `[1,2,3]` with size
0. -/
theorem C7_divide_nonpositive_witness :
    (seller.divide ([1, 2, 3] : List Nat) 0 = none ↔ (0 : Int) = 0) ∧
    ((0 : Int) < 0 → seller.divide ([1, 2, 3] : List Nat) 0 = some []) :=
  C7_divide_nonpositive [1, 2, 3] 0 (by norm_num)

namespace seller

theorem stocksLoop_subset :
    ∀ (ws : List Remnant) (o : List String) (L : List StockPayload) (fin : List String),
      stocksLoop ws o = some (L, fin) → fin ⊆ o ∧ ∀ p ∈ L, p.offer_id ∈ o := by
  intro ws
  induction ws with
  | nil =>
    intro o L fin h
    simp only [stocksLoop, Option.some.injEq, Prod.mk.injEq] at h
    obtain ⟨rfl, rfl⟩ := h
    exact ⟨List.Subset.refl _, by simp⟩
  | cons w ws ih =>
    intro o L fin h
    simp only [stocksLoop] at h
    by_cases hmem : w.code ∈ o
    · rw [if_pos hmem] at h
      cases hst : toStock w.qty with
      | none => rw [hst] at h; exact Option.noConfusion h
      | some st =>
        rw [hst] at h
        cases hrec : stocksLoop ws (o.erase w.code) with
        | none => rw [hrec] at h; exact Option.noConfusion h
        | some pr =>
          obtain ⟨rest, fin2⟩ := pr
          rw [hrec] at h
          simp only [Option.some.injEq, Prod.mk.injEq] at h
          obtain ⟨rfl, rfl⟩ := h
          have hih := ih (o.erase w.code) rest fin2 hrec
          refine ⟨hih.1.trans (List.erase_subset _ _), ?_⟩
          intro p hp
          rcases List.mem_cons.mp hp with hp | hp
          · subst hp; exact hmem
          · exact List.erase_subset _ _ (hih.2 p hp)
    · rw [if_neg hmem] at h
      exact ih o L fin h

theorem stocksLoop_ids :
    ∀ (ws : List Remnant) (o : List String) (L : List StockPayload) (fin : List String),
      stocksLoop ws o = some (L, fin) →
      ∀ p ∈ L, ∃ w ∈ ws, p.offer_id = w.code ∧ toStock w.qty = some p.stock := by
  intro ws
  induction ws with
  | nil =>
    intro o L fin h
    simp only [stocksLoop, Option.some.injEq, Prod.mk.injEq] at h
    obtain ⟨rfl, rfl⟩ := h
    simp
  | cons w ws ih =>
    intro o L fin h
    simp only [stocksLoop] at h
    by_cases hmem : w.code ∈ o
    · rw [if_pos hmem] at h
      cases hst : toStock w.qty with
      | none => rw [hst] at h; exact Option.noConfusion h
      | some st =>
        rw [hst] at h
        cases hrec : stocksLoop ws (o.erase w.code) with
        | none => rw [hrec] at h; exact Option.noConfusion h
        | some pr =>
          obtain ⟨rest, fin2⟩ := pr
          rw [hrec] at h
          simp only [Option.some.injEq, Prod.mk.injEq] at h
          obtain ⟨rfl, rfl⟩ := h
          intro p hp
          rcases List.mem_cons.mp hp with hp | hp
          · exact ⟨w, by simp, by subst hp; simp, by subst hp; simpa using hst⟩
          · obtain ⟨w2, hw2, he⟩ := ih (o.erase w.code) rest fin2 hrec p hp
            exact ⟨w2, by simp [hw2], he⟩
    · rw [if_neg hmem] at h
      intro p hp
      obtain ⟨w2, hw2, he⟩ := ih o L fin h p hp
      exact ⟨w2, by simp [hw2], he⟩

theorem stocksLoop_mem_fin :
    ∀ (ws : List Remnant) (o : List String) (L : List StockPayload) (fin : List String)
      (c : String), (∀ w ∈ ws, w.code ≠ c) → c ∈ o →
      stocksLoop ws o = some (L, fin) → c ∈ fin := by
  intro ws
  induction ws with
  | nil =>
    intro o L fin c _ hc h
    simp only [stocksLoop, Option.some.injEq, Prod.mk.injEq] at h
    obtain ⟨rfl, rfl⟩ := h
    exact hc
  | cons w ws ih =>
    intro o L fin c hne hc h
    simp only [stocksLoop] at h
    by_cases hmem : w.code ∈ o
    · rw [if_pos hmem] at h
      cases hst : toStock w.qty with
      | none => rw [hst] at h; exact Option.noConfusion h
      | some st =>
        rw [hst] at h
        cases hrec : stocksLoop ws (o.erase w.code) with
        | none => rw [hrec] at h; exact Option.noConfusion h
        | some pr =>
          obtain ⟨rest, fin2⟩ := pr
          rw [hrec] at h
          simp only [Option.some.injEq, Prod.mk.injEq] at h
          obtain ⟨rfl, rfl⟩ := h
          refine ih (o.erase w.code) rest fin2 c ?_ ?_ hrec
          · exact fun w2 hw2 => hne w2 (by simp [hw2])
          · have hwc : c ≠ w.code := fun he => hne w (by simp) he.symm
            exact (List.mem_erase_of_ne hwc).mpr hc
    · rw [if_neg hmem] at h
      exact ih o L fin c (fun w2 hw2 => hne w2 (by simp [hw2])) hc h

theorem specMatched_erase (w : Remnant) (ws : List Remnant) (o : List String)
    (hw : w.code ∉ ws.map Remnant.code) :
    specMatched ws (o.erase w.code) = specMatched ws o := by
  apply List.filter_congr
  intro w2 hw2
  have hne : w2.code ≠ w.code := by
    intro he
    exact hw (he ▸ List.mem_map_of_mem Remnant.code hw2)
  exact decide_eq_decide.mpr (List.mem_erase_of_ne hne)

theorem specStale_cons_mem (w : Remnant) (ws : List Remnant) (o : List String)
    (ho : o.Nodup) :
    specStale (w :: ws) o = specStale ws (o.erase w.code) := by
  rw [List.Nodup.erase_eq_filter ho w.code]
  unfold specStale
  rw [List.filter_filter]
  apply List.filter_congr
  intro x hx
  by_cases hx1 : w.code = x
  · simp [List.forall_mem_cons, hx1]
  · simp [List.forall_mem_cons, hx1, Ne.symm hx1]

theorem specStale_cons_not_mem (w : Remnant) (ws : List Remnant) (o : List String)
    (hmem : w.code ∉ o) :
    specStale (w :: ws) o = specStale ws o := by
  apply List.filter_congr
  intro x hx
  have hne : w.code ≠ x := fun he => hmem (he ▸ hx)
  simp [List.forall_mem_cons, hne]

theorem stocksLoop_spec :
    ∀ (ws : List Remnant) (o : List String) (L : List StockPayload) (fin : List String),
      (ws.map Remnant.code).Nodup → o.Nodup →
      stocksLoop ws o = some (L, fin) →
      L = (specMatched ws o).filterMap payloadOf ∧
      fin = specStale ws o ∧
      ∀ w ∈ specMatched ws o, (payloadOf w).isSome := by
  intro ws
  induction ws with
  | nil =>
    intro o L fin _ _ h
    simp only [stocksLoop, Option.some.injEq, Prod.mk.injEq] at h
    obtain ⟨rfl, rfl⟩ := h
    refine ⟨by simp [specMatched], ?_, by simp [specMatched]⟩
    simp [specStale]
  | cons w ws ih =>
    intro o L fin hw ho h
    rw [List.map_cons, List.nodup_cons] at hw
    have hw1 : w.code ∉ ws.map Remnant.code := hw.1
    have hw2 : (ws.map Remnant.code).Nodup := hw.2
    simp only [stocksLoop] at h
    by_cases hmem : w.code ∈ o
    · rw [if_pos hmem] at h
      cases hst : toStock w.qty with
      | none => rw [hst] at h; exact Option.noConfusion h
      | some st =>
        rw [hst] at h
        cases hrec : stocksLoop ws (o.erase w.code) with
        | none => rw [hrec] at h; exact Option.noConfusion h
        | some pr =>
          obtain ⟨rest, fin2⟩ := pr
          rw [hrec] at h
          simp only [Option.some.injEq, Prod.mk.injEq] at h
          obtain ⟨rfl, rfl⟩ := h
          have hih := ih (o.erase w.code) rest fin2 hw2 (List.Nodup.erase _ ho) hrec
          have hm : specMatched (w :: ws) o = w :: specMatched ws o := by
            simp [specMatched, hmem]
          have hme : specMatched ws (o.erase w.code) = specMatched ws o :=
            specMatched_erase w ws o hw1
          have hpw : payloadOf w = some ⟨w.code, st⟩ := by
            simp [payloadOf, hst]
          refine ⟨?_, ?_, ?_⟩
          · rw [hm, List.filterMap_cons, hpw, hih.1, hme]
          · rw [specStale_cons_mem w ws o ho, ← hih.2.1]
          · rw [hm]
            intro w2 hw2m
            rcases List.mem_cons.mp hw2m with hh | hh
            · subst hh; simp [hpw]
            · exact hih.2.2 w2 (hme ▸ hh)
    · rw [if_neg hmem] at h
      have hih := ih o L fin hw2 ho h
      have hm : specMatched (w :: ws) o = specMatched ws o := by
        simp [specMatched, hmem]
      refine ⟨by rw [hm]; exact hih.1, ?_, by rw [hm]; exact hih.2.2⟩
      rw [specStale_cons_not_mem w ws o hmem]
      exact hih.2.1

theorem stocksLoop_consumed :
    ∀ (ws : List Remnant) (o : List String) (L : List StockPayload) (fin : List String),
      o.Nodup → stocksLoop ws o = some (L, fin) → ∀ w ∈ ws, w.code ∉ fin := by
  intro ws
  induction ws with
  | nil => intro o L fin _ _ w hwm; exact absurd hwm (by simp)
  | cons w ws ih =>
    intro o L fin ho h
    simp only [stocksLoop] at h
    by_cases hmem : w.code ∈ o
    · rw [if_pos hmem] at h
      cases hst : toStock w.qty with
      | none => rw [hst] at h; exact Option.noConfusion h
      | some st =>
        rw [hst] at h
        cases hrec : stocksLoop ws (o.erase w.code) with
        | none => rw [hrec] at h; exact Option.noConfusion h
        | some pr =>
          obtain ⟨rest, fin2⟩ := pr
          rw [hrec] at h
          simp only [Option.some.injEq, Prod.mk.injEq] at h
          obtain ⟨rfl, rfl⟩ := h
          intro w2 hw2
          rcases List.mem_cons.mp hw2 with hh | hh
          · subst hh
            intro hcon
            have hsub := (stocksLoop_subset ws (o.erase w2.code) rest fin2 hrec).1
            have : w2.code ∈ o.erase w2.code := hsub hcon
            exact ((List.Nodup.mem_erase_iff ho).mp this).1 rfl
          · exact ih (o.erase w.code) rest fin2 (List.Nodup.erase _ ho) hrec w2 hh
    · rw [if_neg hmem] at h
      intro w2 hw2
      rcases List.mem_cons.mp hw2 with hh | hh
      · subst hh
        intro hcon
        exact hmem ((stocksLoop_subset ws o L fin h).1 hcon)
      · exact ih o L fin ho h w2 hh

theorem stocksLoop_first_write :
    ∀ (ws : List Remnant) (o : List String) (L : List StockPayload) (fin : List String)
      (c : String) (r : Remnant),
      o.Nodup → c ∈ o → ws.find? (fun w => w.code == c) = some r →
      stocksLoop ws o = some (L, fin) →
      ∃ st, toStock r.qty = some st ∧
        L.filter (fun p => p.offer_id == c) = [⟨c, st⟩] ∧ c ∉ fin := by
  intro ws
  induction ws with
  | nil => intro o L fin c r _ _ hfind _; simp at hfind
  | cons w ws ih =>
    intro o L fin c r ho hc hfind h
    simp only [stocksLoop] at h
    by_cases hwc : w.code = c
    · have hr : r = w := by
        rw [List.find?_cons_of_pos _ (by simpa using hwc)] at hfind
        exact (Option.some.injEq _ _ ▸ hfind).symm
      subst hr
      have hmem : r.code ∈ o := hwc ▸ hc
      rw [if_pos hmem] at h
      cases hst : toStock r.qty with
      | none => rw [hst] at h; exact Option.noConfusion h
      | some st =>
        rw [hst] at h
        cases hrec : stocksLoop ws (o.erase r.code) with
        | none => rw [hrec] at h; exact Option.noConfusion h
        | some pr =>
          obtain ⟨rest, fin2⟩ := pr
          rw [hrec] at h
          simp only [Option.some.injEq, Prod.mk.injEq] at h
          obtain ⟨rfl, rfl⟩ := h
          have hcer : c ∉ o.erase r.code := by
            intro hcon
            exact ((List.Nodup.mem_erase_iff ho).mp hcon).1 hwc.symm
          have hsub := stocksLoop_subset ws (o.erase r.code) rest fin2 hrec
          refine ⟨st, rfl, ?_, fun hcon => hcer (hsub.1 hcon)⟩
          rw [List.filter_cons]
          have hhd : ((⟨r.code, st⟩ : StockPayload).offer_id == c) = true := by
            simpa using hwc
          rw [if_pos hhd]
          have hrest : rest.filter (fun p => p.offer_id == c) = [] := by
            rw [List.filter_eq_nil_iff]
            intro p hp
            simp only [beq_iff_eq]
            intro hpe
            exact hcer (hpe ▸ hsub.2 p hp)
          rw [hrest, hwc]
    · have hfind2 : ws.find? (fun w2 => w2.code == c) = some r := by
        rwa [List.find?_cons_of_neg _ (by simpa using hwc)] at hfind
      have hcw : c ≠ w.code := fun he => hwc he.symm
      by_cases hmem : w.code ∈ o
      · rw [if_pos hmem] at h
        cases hst : toStock w.qty with
        | none => rw [hst] at h; exact Option.noConfusion h
        | some st =>
          rw [hst] at h
          cases hrec : stocksLoop ws (o.erase w.code) with
          | none => rw [hrec] at h; exact Option.noConfusion h
          | some pr =>
            obtain ⟨rest, fin2⟩ := pr
            rw [hrec] at h
            simp only [Option.some.injEq, Prod.mk.injEq] at h
            obtain ⟨rfl, rfl⟩ := h
            obtain ⟨st2, hst2, hfil, hfin⟩ :=
              ih (o.erase w.code) rest fin2 c r (List.Nodup.erase _ ho)
                ((List.mem_erase_of_ne hcw).mpr hc) hfind2 hrec
            refine ⟨st2, hst2, ?_, hfin⟩
            rw [List.filter_cons]
            have hhd : ((⟨w.code, st⟩ : StockPayload).offer_id == c) = false := by
              simpa using hwc
            rw [if_neg (by simp [hhd])]
            exact hfil
      · rw [if_neg hmem] at h
        exact ih o L fin c r ho hc hfind2 h

end seller

namespace market

/-- The conversion a fully-populated seller payload undergoes to become
the corresponding partner-API payload for a given warehouse and
timestamp. -/
def ofSeller (wid : Int) (date : String) (p : seller.StockPayload) : StockPayload :=
  ⟨p.offer_id, wid, [⟨p.stock, "FIT", date⟩]⟩

theorem stocksLoop_eq_seller (date : String) (wid : Int) :
    ∀ (ws : List seller.Remnant) (o : List String),
      stocksLoop date wid ws o =
        (seller.stocksLoop ws o).map (fun r => (r.1.map (ofSeller wid date), r.2)) := by
  intro ws
  induction ws with
  | nil => intro o; simp [stocksLoop, seller.stocksLoop]
  | cons w ws ih =>
    intro o
    simp only [stocksLoop, seller.stocksLoop]
    by_cases hmem : w.code ∈ o
    · rw [if_pos hmem, if_pos hmem]
      cases hst : seller.toStock w.qty with
      | none => rfl
      | some st =>
        rw [ih (o.erase w.code)]
        cases hrec : seller.stocksLoop ws (o.erase w.code) with
        | none => rfl
        | some pr =>
          obtain ⟨rest, fin2⟩ := pr
          simp [ofSeller]
    · rw [if_neg hmem, if_neg hmem]
      exact ih o

theorem create_stocks_eq_seller (ws : List seller.Remnant) (o : List String)
    (wid : Int) (date : String) :
    create_stocks ws o wid date =
      (seller.create_stocks ws o).map (fun r => (r.1.map (ofSeller wid date), r.2)) := by
  unfold create_stocks seller.create_stocks
  rw [stocksLoop_eq_seller]
  cases seller.stocksLoop ws o with
  | none => rfl
  | some pr =>
    obtain ⟨L, fin⟩ := pr
    simp [ofSeller, List.map_map]

end market

namespace seller

theorem payloadOf_eq_some (w : Remnant) (h : (payloadOf w).isSome) :
    ∃ st, toStock w.qty = some st ∧ payloadOf w = some ⟨w.code, st⟩ := by
  cases htq : toStock w.qty with
  | none => simp only [payloadOf, htq] at h; exact absurd h (by simp)
  | some st => exact ⟨st, rfl, by simp only [payloadOf, htq]; rfl⟩

theorem filterMap_payload_length (l : List Remnant)
    (h : ∀ a ∈ l, (payloadOf a).isSome) :
    (l.filterMap payloadOf).length = l.length := by
  induction l with
  | nil => rfl
  | cons a l ih =>
    obtain ⟨st, _, hpa⟩ := payloadOf_eq_some a (h a (by simp))
    rw [List.filterMap_cons, hpa, List.length_cons, List.length_cons,
      ih (fun b hb => h b (by simp [hb]))]

theorem filterMap_payload_ids (l : List Remnant)
    (h : ∀ a ∈ l, (payloadOf a).isSome) :
    (l.filterMap payloadOf).map StockPayload.offer_id = l.map Remnant.code := by
  induction l with
  | nil => rfl
  | cons a l ih =>
    obtain ⟨st, _, hpa⟩ := payloadOf_eq_some a (h a (by simp))
    rw [List.filterMap_cons, hpa, List.map_cons, List.map_cons,
      ih (fun b hb => h b (by simp [hb]))]

theorem mem_specStale (ws : List Remnant) (o : List String) (c : String) :
    c ∈ specStale ws o ↔ c ∈ o ∧ ∀ w ∈ ws, w.code ≠ c := by
  simp [specStale, List.mem_filter]

theorem specStale_nodup (ws : List Remnant) (o : List String) (ho : o.Nodup) :
    (specStale ws o).Nodup :=
  List.Nodup.filter _ ho

theorem specMatched_codes_nodup (ws : List Remnant) (o : List String)
    (hw : (ws.map Remnant.code).Nodup) :
    ((specMatched ws o).map Remnant.code).Nodup :=
  (List.Sublist.map Remnant.code (List.filter_sublist ws)).nodup hw

theorem mem_specMatched_codes (ws : List Remnant) (o : List String) (c : String) :
    c ∈ (specMatched ws o).map Remnant.code ↔ ∃ w ∈ ws, w.code ∈ o ∧ w.code = c := by
  simp [specMatched, List.mem_map, List.mem_filter]
  constructor
  · rintro ⟨w, ⟨hwm, hwo⟩, hwc⟩
    exact ⟨w, hwm, hwo, hwc⟩
  · rintro ⟨w, hwm, hwo, hwc⟩
    exact ⟨w, ⟨hwm, hwo⟩, hwc⟩

end seller

/-- Claim C1 counterexample: with pairwise-distinct remnant codes but a
duplicated offer id, the output of `create_stocks` has length 2 while
(matched remnants) + (offer ids not matched by any remnant) is 1, and the
offer id "1" is the identifier of two payloads, not exactly one. -/
theorem C1_counterexample :
    seller.create_stocks [⟨"1", "2", "x"⟩] ["1", "1"] =
      some ([⟨"1", 2⟩, ⟨"1", 0⟩], ["1"]) ∧
    ([⟨"1", 2⟩, ⟨"1", 0⟩] : List seller.StockPayload).length = 2 ∧
    (seller.specMatched [⟨"1", "2", "x"⟩] ["1", "1"]).length +
      (seller.specStale [⟨"1", "2", "x"⟩] ["1", "1"]).length = 1 ∧
    (([⟨"1", 2⟩, ⟨"1", 0⟩] : List seller.StockPayload).map
      seller.StockPayload.offer_id).count "1" = 2 := by
  refine ⟨by decide, by decide, by decide, by decide⟩

/-- Claim C1 (amended): additionally assuming the offer ids pairwise
distinct, the `create_stocks` output length is (number of remnants whose
code is in offerIds) + (number of offerIds not matched by any remnant),
and every input offer id is the identifier of exactly one payload; the
partner-API variant agrees. -/
theorem C1_length_and_unique (ws : List seller.Remnant) (o : List String)
    (hw : (ws.map seller.Remnant.code).Nodup) (ho : o.Nodup)
    (L : List seller.StockPayload) (fin : List String)
    (h : seller.create_stocks ws o = some (L, fin)) :
    L.length = (seller.specMatched ws o).length + (seller.specStale ws o).length ∧
    (∀ c ∈ o, (L.map seller.StockPayload.offer_id).count c = 1) ∧
    (∀ (wid : Int) (date : String) (L2 : List market.StockPayload)
      (fin2 : List String),
      market.create_stocks ws o wid date = some (L2, fin2) →
      L2.length = (seller.specMatched ws o).length + (seller.specStale ws o).length ∧
      ∀ c ∈ o, (L2.map market.StockPayload.sku).count c = 1) := by
  have hcs := h
  unfold seller.create_stocks at h
  cases hsl : seller.stocksLoop ws o with
  | none => rw [hsl] at h; exact Option.noConfusion h
  | some pr =>
    obtain ⟨L0, fin0⟩ := pr
    rw [hsl] at h
    simp only [Option.some.injEq, Prod.mk.injEq] at h
    obtain ⟨hL, hfin⟩ := h
    obtain ⟨hL0, hfin0, hsome⟩ := seller.stocksLoop_spec ws o L0 fin0 hw ho hsl
    subst hL
    subst hL0
    subst hfin0
    have hids : ((seller.specMatched ws o).filterMap seller.payloadOf ++
        (seller.specStale ws o).map (fun o => (⟨o, 0⟩ : seller.StockPayload))).map
          seller.StockPayload.offer_id =
        (seller.specMatched ws o).map seller.Remnant.code ++ seller.specStale ws o := by
      rw [List.map_append, seller.filterMap_payload_ids _ hsome, List.map_map]
      have hco : (seller.StockPayload.offer_id ∘ fun o => (⟨o, 0⟩ : seller.StockPayload)) =
          id := rfl
      rw [hco, List.map_id]
    have hlen : ((seller.specMatched ws o).filterMap seller.payloadOf ++
        (seller.specStale ws o).map (fun o => (⟨o, 0⟩ : seller.StockPayload))).length =
        (seller.specMatched ws o).length + (seller.specStale ws o).length := by
      rw [List.length_append, seller.filterMap_payload_length _ hsome,
        List.length_map]
    have hcnt : ∀ c ∈ o,
        (((seller.specMatched ws o).filterMap seller.payloadOf ++
          (seller.specStale ws o).map (fun o => (⟨o, 0⟩ : seller.StockPayload))).map
            seller.StockPayload.offer_id).count c = 1 := by
      intro c hc
      rw [hids, List.count_append]
      by_cases hex : ∃ w ∈ ws, w.code = c
      · obtain ⟨w, hwm, hwc⟩ := hex
        have h1 : c ∈ (seller.specMatched ws o).map seller.Remnant.code :=
          (seller.mem_specMatched_codes ws o c).mpr ⟨w, hwm, hwc ▸ hc, hwc⟩
        have h2 : c ∉ seller.specStale ws o := by
          rw [seller.mem_specStale]
          rintro ⟨_, hall⟩
          exact hall w hwm hwc
        rw [List.count_eq_one_of_mem (seller.specMatched_codes_nodup ws o hw) h1,
          List.count_eq_zero.mpr h2]
      · push_neg at hex
        have h1 : c ∉ (seller.specMatched ws o).map seller.Remnant.code := by
          rw [seller.mem_specMatched_codes]
          rintro ⟨w, hwm, _, hwc⟩
          exact hex w hwm hwc
        have h2 : c ∈ seller.specStale ws o :=
          (seller.mem_specStale ws o c).mpr ⟨hc, hex⟩
        rw [List.count_eq_zero.mpr h1,
          List.count_eq_one_of_mem (seller.specStale_nodup ws o ho) h2]
    refine ⟨hlen, hcnt, ?_⟩
    intro wid date L2 fin2 h2
    rw [market.create_stocks_eq_seller, hcs] at h2
    simp only [Option.map_some', Option.some.injEq, Prod.mk.injEq] at h2
    obtain ⟨hL2, _⟩ := h2
    subst hL2
    constructor
    · rw [List.length_map]
      exact hlen
    · intro c hc
      have hsku : (market.StockPayload.sku ∘ market.ofSeller wid date) =
          seller.StockPayload.offer_id := rfl
      rw [List.map_map, hsku]
      exact hcnt c hc

/-- Claim C1 witness: the amended theorem at one matched and one stale
offer id. -/
theorem C1_length_and_unique_witness :
    ([⟨"1", 2⟩, ⟨"9", 0⟩] : List seller.StockPayload).length =
      (seller.specMatched [⟨"1", "2", "x"⟩] ["1", "9"]).length +
      (seller.specStale [⟨"1", "2", "x"⟩] ["1", "9"]).length ∧
    (∀ c ∈ (["1", "9"] : List String),
      (([⟨"1", 2⟩, ⟨"9", 0⟩] : List seller.StockPayload).map
        seller.StockPayload.offer_id).count c = 1) ∧
    (∀ (wid : Int) (date : String) (L2 : List market.StockPayload)
      (fin2 : List String),
      market.create_stocks [⟨"1", "2", "x"⟩] ["1", "9"] wid date = some (L2, fin2) →
      L2.length = (seller.specMatched [⟨"1", "2", "x"⟩] ["1", "9"]).length +
        (seller.specStale [⟨"1", "2", "x"⟩] ["1", "9"]).length ∧
      ∀ c ∈ (["1", "9"] : List String),
        (L2.map market.StockPayload.sku).count c = 1) :=
  C1_length_and_unique [⟨"1", "2", "x"⟩] ["1", "9"] (by decide) (by decide)
    [⟨"1", 2⟩, ⟨"9", 0⟩] ["9"] (by decide)

namespace market

theorem payloadOf_eq_ofSeller (wid : Int) (date : String) (w : seller.Remnant) :
    (seller.payloadOf w).map (ofSeller wid date) = payloadOf wid date w := by
  unfold seller.payloadOf payloadOf
  cases seller.toStock w.qty <;> rfl

end market

/-- Claim C4 counterexample: with a duplicated offer id the second zero
payload of the output is emitted for an id that is not stale (it is the
code of a remnant), so the output is not of the claimed form
matched-payloads ++ zeroed-stale-payloads. -/
theorem C4_counterexample :
    seller.create_stocks [⟨"1", "2", "x"⟩] ["1", "1"] =
      some ([⟨"1", 2⟩, ⟨"1", 0⟩], ["1"]) ∧
    ([⟨"1", 2⟩, ⟨"1", 0⟩] : List seller.StockPayload) ≠
      (seller.specMatched [⟨"1", "2", "x"⟩] ["1", "1"]).filterMap seller.payloadOf ++
      (seller.specStale [⟨"1", "2", "x"⟩] ["1", "1"]).map
        (fun c => (⟨c, 0⟩ : seller.StockPayload)) := by
  refine ⟨by decide, by decide⟩

/-- Claim C4 (amended): additionally assuming the offer ids pairwise
distinct, the `create_stocks` output is exactly the matched payloads in
remnants order followed by the zero payloads for the stale ids in
offer-ids order; the partner-API variant agrees. -/
theorem C4_output_order (ws : List seller.Remnant) (o : List String)
    (hw : (ws.map seller.Remnant.code).Nodup) (ho : o.Nodup)
    (L : List seller.StockPayload) (fin : List String)
    (h : seller.create_stocks ws o = some (L, fin)) :
    L = (seller.specMatched ws o).filterMap seller.payloadOf ++
      (seller.specStale ws o).map (fun c => (⟨c, 0⟩ : seller.StockPayload)) ∧
    fin = seller.specStale ws o ∧
    (∀ (wid : Int) (date : String) (L2 : List market.StockPayload)
      (fin2 : List String),
      market.create_stocks ws o wid date = some (L2, fin2) →
      L2 = (seller.specMatched ws o).filterMap (market.payloadOf wid date) ++
        (seller.specStale ws o).map
          (fun c => (⟨c, wid, [⟨0, "FIT", date⟩]⟩ : market.StockPayload)) ∧
      fin2 = seller.specStale ws o) := by
  have hcs := h
  unfold seller.create_stocks at h
  cases hsl : seller.stocksLoop ws o with
  | none => rw [hsl] at h; exact Option.noConfusion h
  | some pr =>
    obtain ⟨L0, fin0⟩ := pr
    rw [hsl] at h
    simp only [Option.some.injEq, Prod.mk.injEq] at h
    obtain ⟨hL, hfin⟩ := h
    obtain ⟨hL0, hfin0, _⟩ := seller.stocksLoop_spec ws o L0 fin0 hw ho hsl
    subst hL
    subst hL0
    subst hfin0
    refine ⟨rfl, hfin.symm, ?_⟩
    intro wid date L2 fin2 h2
    rw [market.create_stocks_eq_seller, hcs] at h2
    simp only [Option.map_some', Option.some.injEq, Prod.mk.injEq] at h2
    obtain ⟨hL2, hfin2⟩ := h2
    refine ⟨?_, hfin2.symm.trans hfin.symm⟩
    rw [← hL2, List.map_append, List.map_filterMap, List.map_map]
    congr 1
    apply List.filterMap_congr
    intro w _
    exact market.payloadOf_eq_ofSeller wid date w

/-- Claim C4 witness: the amended theorem at one matched and one stale
offer id. -/
theorem C4_output_order_witness :
    ([⟨"1", 2⟩, ⟨"9", 0⟩] : List seller.StockPayload) =
      (seller.specMatched [⟨"1", "2", "x"⟩] ["1", "9"]).filterMap seller.payloadOf ++
      (seller.specStale [⟨"1", "2", "x"⟩] ["1", "9"]).map
        (fun c => (⟨c, 0⟩ : seller.StockPayload)) ∧
    (["9"] : List String) = seller.specStale [⟨"1", "2", "x"⟩] ["1", "9"] ∧
    (∀ (wid : Int) (date : String) (L2 : List market.StockPayload)
      (fin2 : List String),
      market.create_stocks [⟨"1", "2", "x"⟩] ["1", "9"] wid date = some (L2, fin2) →
      L2 = (seller.specMatched [⟨"1", "2", "x"⟩] ["1", "9"]).filterMap
          (market.payloadOf wid date) ++
        (seller.specStale [⟨"1", "2", "x"⟩] ["1", "9"]).map
          (fun c => (⟨c, wid, [⟨0, "FIT", date⟩]⟩ : market.StockPayload)) ∧
      fin2 = seller.specStale [⟨"1", "2", "x"⟩] ["1", "9"]) :=
  C4_output_order [⟨"1", "2", "x"⟩] ["1", "9"] (by decide) (by decide)
    [⟨"1", 2⟩, ⟨"9", 0⟩] ["9"] (by decide)

/-- Claim C9 counterexample: two remnant records share the code "1" with
quantities "2" then "3"; the emitted payload carries the quantity of the
first record (stock 2), not the last (stock 3): the code is consumed from
the offer-ids list on the first match, so the second record never
matches. -/
theorem C9_counterexample :
    seller.create_stocks [⟨"1", "2", "x"⟩, ⟨"1", "3", "y"⟩] ["1"] =
      some ([⟨"1", 2⟩], []) ∧
    (⟨"1", 3⟩ : seller.StockPayload) ∉ ([⟨"1", 2⟩] : List seller.StockPayload) := by
  refine ⟨by decide, by decide⟩

/-- Claim C9 (amended): with pairwise-distinct offer ids, when several
remnant records share a code that is in offerIds, the single payload
emitted for that code carries the quantity of the FIRST such record
(first write per code wins, because the code is consumed on first
match); the partner-API variant agrees. -/
theorem C9_first_write_wins (ws : List seller.Remnant) (o : List String)
    (c : String) (r : seller.Remnant)
    (ho : o.Nodup) (hc : c ∈ o)
    (hfind : ws.find? (fun w => w.code == c) = some r)
    (L : List seller.StockPayload) (fin : List String)
    (h : seller.create_stocks ws o = some (L, fin)) :
    ∃ st, seller.toStock r.qty = some st ∧
      L.filter (fun p => p.offer_id == c) = [⟨c, st⟩] ∧
      ∀ (wid : Int) (date : String) (L2 : List market.StockPayload)
        (fin2 : List String),
        market.create_stocks ws o wid date = some (L2, fin2) →
        L2.filter (fun p => p.sku == c) = [⟨c, wid, [⟨st, "FIT", date⟩]⟩] := by
  have hcs := h
  unfold seller.create_stocks at h
  cases hsl : seller.stocksLoop ws o with
  | none => rw [hsl] at h; exact Option.noConfusion h
  | some pr =>
    obtain ⟨L0, fin0⟩ := pr
    rw [hsl] at h
    simp only [Option.some.injEq, Prod.mk.injEq] at h
    obtain ⟨hL, hfin⟩ := h
    subst hL
    obtain ⟨st, hst, hfil, hcfin⟩ :=
      seller.stocksLoop_first_write ws o L0 fin0 c r ho hc hfind hsl
    have hmapnil : (fin0.map (fun o => (⟨o, 0⟩ : seller.StockPayload))).filter
        (fun p => p.offer_id == c) = [] := by
      rw [List.filter_eq_nil_iff]
      intro p hp
      obtain ⟨x, hx, rfl⟩ := List.mem_map.mp hp
      simp only [beq_iff_eq]
      intro hpe
      exact hcfin (hpe ▸ hx)
    have hfilL : (L0 ++ fin0.map (fun o => (⟨o, 0⟩ : seller.StockPayload))).filter
        (fun p => p.offer_id == c) = [⟨c, st⟩] := by
      rw [List.filter_append, hfil, hmapnil, List.append_nil]
    refine ⟨st, hst, hfilL, ?_⟩
    intro wid date L2 fin2 h2
    rw [market.create_stocks_eq_seller, hcs] at h2
    simp only [Option.map_some', Option.some.injEq, Prod.mk.injEq] at h2
    obtain ⟨hL2, _⟩ := h2
    rw [← hL2, List.filter_map]
    have hpred : ((fun p2 : market.StockPayload => p2.sku == c) ∘
        market.ofSeller wid date) = (fun p => p.offer_id == c) := rfl
    rw [hpred, hfilL]
    rfl

/-- Claim C9 witness: the amended theorem applied where the code "1"
occurs in two remnant records with quantities "2" and "3". -/
theorem C9_first_write_wins_witness :
    ∃ st, seller.toStock "2" = some st ∧
      ([⟨"1", 2⟩] : List seller.StockPayload).filter
        (fun p => p.offer_id == "1") = [⟨"1", st⟩] ∧
      ∀ (wid : Int) (date : String) (L2 : List market.StockPayload)
        (fin2 : List String),
        market.create_stocks [⟨"1", "2", "x"⟩, ⟨"1", "3", "y"⟩] ["1"] wid date =
          some (L2, fin2) →
        L2.filter (fun p => p.sku == "1") = [⟨"1", wid, [⟨st, "FIT", date⟩]⟩] :=
  C9_first_write_wins [⟨"1", "2", "x"⟩, ⟨"1", "3", "y"⟩] ["1"] "1" ⟨"1", "2", "x"⟩
    (by decide) (by decide) (by decide) [⟨"1", 2⟩] [] (by decide)

/-- Claim C10 counterexample: with a duplicated offer id, one occurrence
of "1" is consumed by the matching remnant but the other survives into
the leftover list, so `create_prices` run on the shared mutated list
afterwards still matches the remnant and returns a non-empty list. -/
theorem C10_counterexample :
    seller.create_stocks [⟨"1", "2", "x"⟩] ["1", "1"] =
      some ([⟨"1", 2⟩, ⟨"1", 0⟩], ["1"]) ∧
    seller.create_prices [⟨"1", "2", "x"⟩] ["1"] ≠ [] := by
  refine ⟨by decide, by decide⟩

/-- Claim C10 (amended): provided the offer ids are pairwise distinct,
running `create_prices` on the offer-ids list left after `create_stocks`
consumed it (as seller.py main does: stocks first, then prices on the
shared mutated list) returns the empty list. -/
theorem C10_prices_after_stocks (ws : List seller.Remnant) (o : List String)
    (ho : o.Nodup) (L : List seller.StockPayload) (fin : List String)
    (h : seller.create_stocks ws o = some (L, fin)) :
    seller.create_prices ws fin = [] := by
  unfold seller.create_stocks at h
  cases hsl : seller.stocksLoop ws o with
  | none => rw [hsl] at h; exact Option.noConfusion h
  | some pr =>
    obtain ⟨L0, fin0⟩ := pr
    rw [hsl] at h
    simp only [Option.some.injEq, Prod.mk.injEq] at h
    obtain ⟨_, hfin⟩ := h
    subst hfin
    have hcons := seller.stocksLoop_consumed ws o L0 fin0 ho hsl
    unfold seller.create_prices
    rw [List.filterMap_eq_nil_iff]
    intro w hw
    rw [if_neg (hcons w hw)]

/-- Claim C10 witness: the amended theorem applied at a run where the
only offer id is consumed. -/
theorem C10_prices_after_stocks_witness :
    seller.create_prices [⟨"1", "2", "x"⟩] [] = [] :=
  C10_prices_after_stocks [⟨"1", "2", "x"⟩] ["1"] (by decide) [⟨"1", 2⟩] []
    (by decide)

/-- Claim C2: for a matched remnant, `create_stocks` resolves the
quantity as: sentinel `">10"` gives count 100, sentinel `"1"` gives count
0, and any other quantity that is a numeric string parses with `int` to
exactly that value; a matched singleton produces exactly that payload in
both the seller and the partner variant. -/
theorem C2_quantity_bucketing :
    seller.toStock ">10" = some 100 ∧
    seller.toStock "1" = some 0 ∧
    (∀ (q : String) (n : Int), q ≠ ">10" → q ≠ "1" →
      seller.pyInt q = some n → seller.toStock q = some n) ∧
    (∀ (w : seller.Remnant) (st : Int), seller.toStock w.qty = some st →
      seller.create_stocks [w] [w.code] = some ([⟨w.code, st⟩], []) ∧
      ∀ (wid : Int) (date : String),
        market.create_stocks [w] [w.code] wid date =
          some ([⟨w.code, wid, [⟨st, "FIT", date⟩]⟩], [])) := by
  refine ⟨rfl, rfl, ?_, ?_⟩
  · intro q n h1 h2 hp
    simp [seller.toStock, h1, h2, hp]
  · intro w st hst
    have hsell : seller.create_stocks [w] [w.code] = some ([⟨w.code, st⟩], []) := by
      simp [seller.create_stocks, seller.stocksLoop, hst]
    refine ⟨hsell, fun wid date => ?_⟩
    rw [market.create_stocks_eq_seller, hsell]
    rfl

/-- Claim C2 witness: the bucketing applied at the numeric quantity "7"
and at a concrete matched remnant. -/
theorem C2_quantity_bucketing_witness :
    seller.toStock "7" = some 7 ∧
    seller.create_stocks [⟨"5", "7", "x"⟩] ["5"] = some ([⟨"5", 7⟩], []) :=
  ⟨C2_quantity_bucketing.2.2.1 "7" 7 (by decide) (by decide) (by decide),
   (C2_quantity_bucketing.2.2.2 ⟨"5", "7", "x"⟩ 7 (by decide)).1⟩

/-- Claim C8: within one call of the partner-API `create_stocks` the one
timestamp captured before the loop (the `date` argument of the embedding)
is the `updatedAt` value of every item of every payload of the output,
matched and stale alike. -/
theorem C8_single_timestamp (ws : List seller.Remnant) (o : List String)
    (wid : Int) (date : String) (L : List market.StockPayload) (fin : List String)
    (h : market.create_stocks ws o wid date = some (L, fin)) :
    ∀ p ∈ L, ∀ it ∈ p.items, it.updatedAt = date := by
  rw [market.create_stocks_eq_seller] at h
  cases hsl : seller.create_stocks ws o with
  | none => rw [hsl] at h; exact Option.noConfusion h
  | some pr =>
    obtain ⟨L0, fin0⟩ := pr
    rw [hsl] at h
    simp only [Option.map_some', Option.some.injEq, Prod.mk.injEq] at h
    obtain ⟨hL, _⟩ := h
    subst hL
    intro p hp
    obtain ⟨p0, _, rfl⟩ := List.mem_map.mp hp
    intro it hit
    simp only [market.ofSeller, List.mem_singleton] at hit
    subst hit
    rfl

/-- Claim C3: an offer id that is in `offer_ids` but is not the
stringified code of any remnant appears in the `create_stocks` output
with count 0 (and every payload carrying it has count 0), while
`create_prices` emits no payload at all for it; likewise in the
partner-API variant. -/
theorem C3_stale_offers (ws : List seller.Remnant) (o : List String) (c : String)
    (hc : c ∈ o) (hstale : ∀ w ∈ ws, w.code ≠ c)
    (L : List seller.StockPayload) (fin : List String)
    (h : seller.create_stocks ws o = some (L, fin)) :
    (⟨c, 0⟩ : seller.StockPayload) ∈ L ∧
    (∀ p ∈ L, p.offer_id = c → p.stock = 0) ∧
    (∀ (ids : List String), ∀ pr ∈ seller.create_prices ws ids, pr.offer_id ≠ c) ∧
    (∀ (wid : Int) (date : String) (L2 : List market.StockPayload) (fin2 : List String),
      market.create_stocks ws o wid date = some (L2, fin2) →
      (⟨c, wid, [⟨0, "FIT", date⟩]⟩ : market.StockPayload) ∈ L2 ∧
      ∀ p ∈ L2, p.sku = c → p.items = [⟨0, "FIT", date⟩]) := by
  unfold seller.create_stocks at h
  cases hsl : seller.stocksLoop ws o with
  | none => rw [hsl] at h; exact Option.noConfusion h
  | some pr =>
    obtain ⟨L0, fin0⟩ := pr
    rw [hsl] at h
    simp only [Option.some.injEq, Prod.mk.injEq] at h
    obtain ⟨hL, hfin⟩ := h
    subst hL
    subst hfin
    have hcfin : c ∈ fin0 := seller.stocksLoop_mem_fin ws o L0 fin0 c hstale hc hsl
    have hmem : (⟨c, 0⟩ : seller.StockPayload) ∈ L0 ++ fin0.map (fun o => ⟨o, 0⟩) :=
      List.mem_append_right _ (List.mem_map.mpr ⟨c, hcfin, rfl⟩)
    have hzero : ∀ p ∈ L0 ++ fin0.map (fun o => (⟨o, 0⟩ : seller.StockPayload)),
        p.offer_id = c → p.stock = 0 := by
      intro p hp hpc
      rcases List.mem_append.mp hp with hp | hp
      · obtain ⟨w, hwm, hwe, _⟩ := seller.stocksLoop_ids ws o L0 fin0 hsl p hp
        exact absurd (hpc ▸ hwe).symm (hstale w hwm)
      · obtain ⟨x, _, rfl⟩ := List.mem_map.mp hp
        rfl
    refine ⟨hmem, hzero, ?_, ?_⟩
    · intro ids pr hpr
      obtain ⟨w, hwm, hwe⟩ := List.mem_filterMap.mp hpr
      by_cases hin : w.code ∈ ids
      · rw [if_pos hin] at hwe
        obtain ⟨rfl⟩ := hwe
        exact hstale w hwm
      · rw [if_neg hin] at hwe
        exact Option.noConfusion hwe
    · intro wid date L2 fin2 h2
      rw [market.create_stocks_eq_seller] at h2
      rw [show seller.create_stocks ws o =
            some (L0 ++ fin0.map (fun o => ⟨o, 0⟩), fin0) by
          unfold seller.create_stocks; rw [hsl]] at h2
      simp only [Option.map_some', Option.some.injEq, Prod.mk.injEq] at h2
      obtain ⟨hL2, _⟩ := h2
      subst hL2
      constructor
      · exact List.mem_map.mpr ⟨⟨c, 0⟩, hmem, rfl⟩
      · intro p hp hps
        obtain ⟨p0, hp0, rfl⟩ := List.mem_map.mp hp
        have : p0.stock = 0 := hzero p0 hp0 hps
        simp [market.ofSeller, this]

/-- Claim C3 witness: the theorem applied with stale offer id "9". -/
theorem C3_stale_offers_witness :
    (⟨"9", 0⟩ : seller.StockPayload) ∈
      ([⟨"1", 2⟩, ⟨"9", 0⟩] : List seller.StockPayload) ∧
    (∀ p ∈ ([⟨"1", 2⟩, ⟨"9", 0⟩] : List seller.StockPayload),
      p.offer_id = "9" → p.stock = 0) ∧
    (∀ (ids : List String),
      ∀ pr ∈ seller.create_prices [⟨"1", "2", "x"⟩] ids, pr.offer_id ≠ "9") ∧
    (∀ (wid : Int) (date : String) (L2 : List market.StockPayload) (fin2 : List String),
      market.create_stocks [⟨"1", "2", "x"⟩] ["1", "9"] wid date = some (L2, fin2) →
      (⟨"9", wid, [⟨0, "FIT", date⟩]⟩ : market.StockPayload) ∈ L2 ∧
      ∀ p ∈ L2, p.sku = "9" → p.items = [⟨0, "FIT", date⟩]) :=
  C3_stale_offers [⟨"1", "2", "x"⟩] ["1", "9"] "9" (by decide) (by decide) _ ["9"]
    (by decide)

/-- Claim C8 witness: the theorem applied to one matched and one stale
offer with timestamp "D". -/
theorem C8_single_timestamp_witness :
    (⟨100, "FIT", "D"⟩ : market.StockItem).updatedAt = "D" :=
  C8_single_timestamp [⟨"1", ">10", "x"⟩] ["1", "2"] 5 "D"
    [⟨"1", 5, [⟨100, "FIT", "D"⟩]⟩, ⟨"2", 5, [⟨0, "FIT", "D"⟩]⟩] ["2"] (by decide)
    ⟨"1", 5, [⟨100, "FIT", "D"⟩]⟩ (by decide) ⟨100, "FIT", "D"⟩ (by decide)
